import Mathlib

/-!
Verification of the CarClassification repository (Siamese network on MNIST,
file minst_verification.ipynb) against its natural-language specification.

The notebook's pure computational core is embedded shallowly:

* `ContrastiveLoss` (margin-based contrastive loss over a batch) — real-valued
  semantics of the float computation; the 1e-6 numerical-stability epsilon of
  the library distance routine is elided as a floating-point artifact.
* `SiameseNetwork` (weight-sharing forward passes) — the backbone feature
  extractor is an opaque function field, the projection head is explicit.
* `organize_by_label`, `create_pairs` — label indexing and random pair
  sampling, with the random source made an explicit oracle and failing draws
  returning `Option.none` (a raised exception in the original).
* `ContrastiveMNISTDataset` — the lazy paired dataset view.
* The per-epoch checkpoint / early-stopping state machine of the training
  loop, with the sequence of average validation losses as an oracle.
-/

/-! ### Contrastive loss (cell 5 of the notebook)

A batch element is a triple `(output1, output2, label)` of two embedding
vectors in `Fin n → ℝ` and a real similarity label. -/

/-- Real-valued semantics of the library routine
`torch.nn.functional.pairwise_distance(x1, x2)` (p = 2): the Euclidean norm of
the componentwise difference. -/
noncomputable def pairwise_distance {n : ℕ} (x1 x2 : Fin n → ℝ) : ℝ :=
  Real.sqrt (∑ i, (x1 i - x2 i) ^ 2)

/-- Semantics of `torch.clamp(x, min=m)`. -/
noncomputable def clamp_min (x m : ℝ) : ℝ := max x m

/-- The body of `ContrastiveLoss.forward`: per batch element
`(1 - label) * d ^ 2 + label * clamp(margin - d, min=0) ^ 2` with
`d = pairwise_distance`, then `torch.mean` over the batch (sum divided by
batch size). -/
noncomputable def ContrastiveLoss_forward {n : ℕ} (margin : ℝ)
    (batch : List ((Fin n → ℝ) × (Fin n → ℝ) × ℝ)) : ℝ :=
  (batch.map (fun p =>
      (1 - p.2.2) * pairwise_distance p.1 p.2.1 ^ 2 +
        p.2.2 * clamp_min (margin - pairwise_distance p.1 p.2.1) 0 ^ 2)).sum
    / batch.length

/-- The distance named by the specification: the distance of the metric space
`EuclideanSpace ℝ (Fin n)`. -/
noncomputable def spec_euclidean_distance {n : ℕ} (a b : Fin n → ℝ) : ℝ :=
  dist ((WithLp.equiv 2 (Fin n → ℝ)).symm a) ((WithLp.equiv 2 (Fin n → ℝ)).symm b)

/-- The loss the specification describes:
`(1 - label) * d ^ 2 + label * max (0, margin - d) ^ 2` with `d` the Euclidean
distance between the two vectors, averaged over the batch. -/
noncomputable def spec_contrastive_loss {n : ℕ} (margin : ℝ)
    (batch : List ((Fin n → ℝ) × (Fin n → ℝ) × ℝ)) : ℝ :=
  (batch.map (fun p =>
      (1 - p.2.2) * spec_euclidean_distance p.1 p.2.1 ^ 2 +
        p.2.2 * max 0 (margin - spec_euclidean_distance p.1 p.2.1) ^ 2)).sum
    / batch.length

/-! ### Siamese network (cell 5 of the notebook)

The pretrained ResNet50 backbone (with its final fully connected layer
removed) and the flattening step are opaque library services; they enter the
embedding as the single function field `feature_extractor`.  The projection
head `fc = Linear(2048, 512) → ReLU → Linear(512, 128)` is explicit; weights
and biases are rows of reals.  There is exactly one parameter set per network
value, so both forward passes share it. -/

structure SiameseNetwork (α : Type) where
  feature_extractor : α → List ℝ
  fc1_weight : List (List ℝ)
  fc1_bias : List ℝ
  fc2_weight : List (List ℝ)
  fc2_bias : List ℝ

/-- Dot product of two real vectors (rows). -/
def dotprod (xs ys : List ℝ) : ℝ := (List.zipWith (fun a b => a * b) xs ys).sum

/-- Semantics of `nn.Linear`: each output coordinate is a weight row dotted
with the input plus the bias. -/
def linear_layer (w : List (List ℝ)) (b : List ℝ) (x : List ℝ) : List ℝ :=
  List.zipWith (fun row bi => dotprod row x + bi) w b

/-- Semantics of `nn.ReLU`: componentwise `max 0`. -/
def relu (x : List ℝ) : List ℝ := x.map (fun v => max 0 v)

/-- `SiameseNetwork.forward_once`: feature extraction (with flatten), then the
two-layer projection head. -/
def SiameseNetwork.forward_once {α : Type} (net : SiameseNetwork α) (x : α) :
    List ℝ :=
  linear_layer net.fc2_weight net.fc2_bias
    (relu (linear_layer net.fc1_weight net.fc1_bias (net.feature_extractor x)))

/-- `SiameseNetwork.forward`: embeds both inputs with the same network. -/
def SiameseNetwork.forward {α : Type} (net : SiameseNetwork α)
    (input1 input2 : α) : List ℝ × List ℝ :=
  (net.forward_once input1, net.forward_once input2)

/-! ### Label index and pair sampler (cells 1 and 2 of the notebook)

The base dataset enters as its length together with a labelling function on
indices.  The Python dict is embedded as an association list in insertion
order (a new label's bucket is appended at the end, an index is appended at
the end of its label's bucket), exactly the iteration order of a Python
dict. -/

/-- Append `idx` to the bucket of `label`, creating the bucket at the end of
the dictionary when the label is new — the effect of
`if label not in label_dict: label_dict[label] = []` followed by
`label_dict[label].append(idx)`. -/
def addToBucket (d : List (ℕ × List ℕ)) (label idx : ℕ) : List (ℕ × List ℕ) :=
  match d with
  | [] => [(label, [idx])]
  | (k, b) :: rest =>
    if k = label then (k, b ++ [idx]) :: rest
    else (k, b) :: addToBucket rest label idx

/-- `organize_by_label`: scan indices `0, …, n-1` once, appending each to the
bucket of its label. -/
def organize_by_label (n : ℕ) (labelOf : ℕ → ℕ) : List (ℕ × List ℕ) :=
  (List.range n).foldl (fun d idx => addToBucket d (labelOf idx) idx) []

/-- Bucket lookup `label_dict[label]`, `[]` when the key is absent (inside
`create_pairs` the key is always present). -/
def dictGet (d : List (ℕ × List ℕ)) (label : ℕ) : List ℕ :=
  match d with
  | [] => []
  | (k, b) :: rest => if k = label then b else dictGet rest label

/-- Semantics of `random.choice(l)`: some element of `l`, `none` (an
`IndexError`) when `l` is empty.  The random draw is the oracle value `r`. -/
def rand_choice {α : Type} (l : List α) (r : ℕ) : Option α :=
  l[r % l.length]?

/-- Semantics of `random.sample(l, 2)`: two elements of `l` at distinct
positions, `none` (a `ValueError`) when `l` has fewer than two elements.  The
two random draws are the oracle values `r1`, `r2`. -/
def rand_sample2 {α : Type} (l : List α) (r1 r2 : ℕ) : Option (α × α) :=
  if 2 ≤ l.length then
    match l[r1 % l.length]?,
          l[if r1 % l.length ≤ r2 % (l.length - 1)
            then r2 % (l.length - 1) + 1
            else r2 % (l.length - 1)]? with
    | some a, some b => some (a, b)
    | _, _ => none
  else none

/-- The randomness one iteration of `create_pairs` consumes: one draw for
`random.choice(labels)`, two for `random.sample(label_dict[label], 2)`, two
for `random.sample(labels, 2)`, and one for each of the two
`random.choice(label_dict[...])` calls. -/
structure IterRand where
  posLabel : ℕ
  posIdx1 : ℕ
  posIdx2 : ℕ
  negLab1 : ℕ
  negLab2 : ℕ
  negIdx1 : ℕ
  negIdx2 : ℕ

/-- One iteration of the loop body of `create_pairs`: attempt a positive pair
(only when the chosen label's bucket has at least 2 members), then always
produce a negative pair.  `none` models an uncaught exception. -/
def create_one (d : List (ℕ × List ℕ)) (r : IterRand) :
    Option (List (ℕ × ℕ × ℕ)) :=
  match rand_choice (d.map Prod.fst) r.posLabel with
  | none => none
  | some label =>
    match (if 2 ≤ (dictGet d label).length then
             match rand_sample2 (dictGet d label) r.posIdx1 r.posIdx2 with
             | none => none
             | some (i1, i2) => some [(i1, i2, 0)]
           else some []) with
    | none => none
    | some pos =>
      match rand_sample2 (d.map Prod.fst) r.negLab1 r.negLab2 with
      | none => none
      | some (l1, l2) =>
        match rand_choice (dictGet d l1) r.negIdx1 with
        | none => none
        | some j1 =>
          match rand_choice (dictGet d l2) r.negIdx2 with
          | none => none
          | some j2 => some (pos ++ [(j1, j2, 1)])

/-- The loop of `create_pairs`, iteration `k` onwards with `m` iterations
left; iteration `k` consumes the oracle entry `rnd k`. -/
def create_pairs_aux (d : List (ℕ × List ℕ)) (rnd : ℕ → IterRand) :
    ℕ → ℕ → Option (List (ℕ × ℕ × ℕ))
  | _, 0 => some []
  | k, m + 1 =>
    match create_one d (rnd k) with
    | none => none
    | some chunk =>
      match create_pairs_aux d rnd (k + 1) m with
      | none => none
      | some rest => some (chunk ++ rest)

/-- `create_pairs(dataset, label_dict, num_pairs)`: `num_pairs` iterations,
records in generation order.  `none` models an uncaught exception aborting
the call (nothing is returned in that case). -/
def create_pairs (d : List (ℕ × List ℕ)) (num_pairs : ℕ)
    (rnd : ℕ → IterRand) : Option (List (ℕ × ℕ × ℕ)) :=
  create_pairs_aux d rnd 0 num_pairs

/-! ### Paired dataset view (cell 3 of the notebook) -/

/-- The base dataset interface the view resolves against: `get idx` yields the
(already transformed) sample and its label.  Reads are pure. -/
structure BaseDataset (α : Type) where
  length : ℕ
  get : ℕ → α × ℕ

/-- `ContrastiveMNISTDataset` holds a reference to the base dataset and the
pair records (indices only, no samples). -/
structure ContrastiveMNISTDataset (α : Type) where
  dataset : BaseDataset α
  pairs : List (ℕ × ℕ × ℕ)

/-- `__len__`. -/
def ContrastiveMNISTDataset.len {α : Type} (D : ContrastiveMNISTDataset α) :
    ℕ :=
  D.pairs.length

/-- `__getitem__`: resolve both indices of pair `i` against the base dataset
and return the similarity label as a float (embedded into `ℚ`); `none` (an
`IndexError`) out of range. -/
def ContrastiveMNISTDataset.getitem {α : Type}
    (D : ContrastiveMNISTDataset α) (i : ℕ) : Option ((α × α) × ℚ) :=
  match D.pairs[i]? with
  | none => none
  | some (i1, i2, label) =>
    some (((D.dataset.get i1).1, (D.dataset.get i2).1), (label : ℚ))

/-! ### Training loop checkpoint / early-stop state machine (cells 6–7)

The training and validation phases themselves are numeric computations on the
GPU; what the claims describe is the per-epoch decision logic, which depends
only on the sequence of average validation losses.  That sequence enters as
an oracle `ℕ → ℚ` (epoch number to that epoch's average validation loss; the
float values are embedded into `ℚ`).  The `saved` field records which epoch's
parameters the checkpoint file currently holds. -/

structure TrainState where
  best_val_loss : Option ℚ
  early_stop_counter : ℕ
  saved : Option ℕ
  deriving DecidableEq, Repr

/-- Initial state: `best_val_loss = float('inf')` (no finite loss seen yet),
counter 0, no checkpoint written. -/
def initTrainState : TrainState :=
  { best_val_loss := none, early_stop_counter := 0, saved := none }

/-- The comparison `avg_val_loss < best_val_loss`, where `none` stands for the
initial `float('inf')`. -/
def ltBest (v : ℚ) (best : Option ℚ) : Bool :=
  match best with
  | none => true
  | some b => decide (v < b)

/-- The checkpoint decision at the end of epoch `e` with average validation
loss `v`: on strict improvement save the model and reset the counter,
otherwise increment the counter. -/
def checkpoint_step (s : TrainState) (e : ℕ) (v : ℚ) : TrainState :=
  if ltBest v s.best_val_loss then
    { best_val_loss := some v, early_stop_counter := 0, saved := some e }
  else
    { s with early_stop_counter := s.early_stop_counter + 1 }

/-- The state after the first `k` epochs have completed (epoch numbers start
at 0, matching `range(num_epochs)`). -/
def state_after (L : ℕ → ℚ) : ℕ → TrainState
  | 0 => initTrainState
  | k + 1 => checkpoint_step (state_after L k) k (L k)

/-- `num_epochs = 50`. -/
def num_epochs : ℕ := 50

/-- `patience = 10`. -/
def patience : ℕ := 10

/-- The epoch loop from epoch `e` with `fuel` epochs of budget left: run an
epoch, apply the checkpoint decision, then break when the early-stop counter
has reached the patience.  Returns the number of executed epochs and the
final state. -/
def train_loop_aux (L : ℕ → ℚ) : ℕ → ℕ → TrainState → ℕ × TrainState
  | e, 0, s => (e, s)
  | e, fuel + 1, s =>
    let s' := checkpoint_step s e (L e)
    if patience ≤ s'.early_stop_counter then (e + 1, s')
    else train_loop_aux L (e + 1) fuel s'

/-- The whole training loop: `for epoch in range(num_epochs)` with the
early-stop break. -/
def train_loop (L : ℕ → ℚ) : ℕ × TrainState :=
  train_loop_aux L 0 num_epochs initTrainState

/-! ### Concrete fixtures for witnesses

The toy dataset the specification itself proposes: 4 samples with labels
`[0, 0, 1, 1]`. -/

/-- A constant randomness oracle. -/
def witness_rand : ℕ → IterRand := fun _ => ⟨0, 0, 0, 0, 0, 0, 0⟩

/-- Labels `[0, 0, 1, 1]` on indices `0, …, 3`. -/
def witness_labelOf : ℕ → ℕ := fun i => i / 2

/-- A 4-element base dataset with samples `100 + i` and labels `[0, 0, 1, 1]`. -/
def witness_base : BaseDataset ℕ := ⟨4, fun i => (100 + i, i / 2)⟩

/-- A paired view over `witness_base` with one positive and one degenerate
negative pair record. -/
def witness_view : ContrastiveMNISTDataset ℕ :=
  ⟨witness_base, [(0, 1, 0), (2, 2, 1)]⟩

/-- A constant validation-loss sequence. -/
def witness_losses : ℕ → ℚ := fun _ => 0

theorem pairwise_distance_eq_spec {n : ℕ} (a b : Fin n → ℝ) :
    pairwise_distance a b = spec_euclidean_distance a b := by
  unfold pairwise_distance spec_euclidean_distance
  rw [EuclideanSpace.dist_eq]
  congr 1
  refine Finset.sum_congr rfl (fun i _ => ?_)
  rw [Real.dist_eq, sq_abs]
  rfl

/-- Claim C1: for every batch of embedding-vector pairs with labels and every
margin, `ContrastiveLoss.forward` equals the batch mean of
`(1 - label) * d ^ 2 + label * max (0, margin - d) ^ 2`, where `d` is the
Euclidean distance between the two vectors. -/
theorem contrastive_loss_matches_spec {n : ℕ} (margin : ℝ)
    (batch : List ((Fin n → ℝ) × (Fin n → ℝ) × ℝ)) :
    ContrastiveLoss_forward margin batch = spec_contrastive_loss margin batch := by
  unfold ContrastiveLoss_forward spec_contrastive_loss
  congr 2
  refine List.map_congr_left (fun p _ => ?_)
  rw [pairwise_distance_eq_spec]
  unfold clamp_min
  rw [max_comm]

/-- Claim C6: `SiameseNetwork.forward` returns exactly
`(forward_once input1, forward_once input2)` computed with the single shared
parameter set, so the embedding of an input is identical whether it is
computed as the first or the second component of `forward`. -/
theorem siamese_forward_weight_sharing {α : Type} (net : SiameseNetwork α) :
    (∀ a b : α, net.forward a b = (net.forward_once a, net.forward_once b)) ∧
    (∀ x a b : α, (net.forward x a).1 = (net.forward b x).2) :=
  ⟨fun _ _ => rfl, fun _ _ _ => rfl⟩

/-- Claim C7: the contrastive loss is non-negative whenever every label of the
batch is 0 or 1, and it is 0 on a batch in which every pair either has label 0
and distance 0, or label 1 and distance at least the margin. -/
theorem contrastive_loss_nonneg_and_zero_cases {n : ℕ} (margin : ℝ)
    (batch : List ((Fin n → ℝ) × (Fin n → ℝ) × ℝ))
    (hl : ∀ p ∈ batch, p.2.2 = 0 ∨ p.2.2 = 1) :
    0 ≤ ContrastiveLoss_forward margin batch ∧
    ((∀ p ∈ batch, (p.2.2 = 0 ∧ pairwise_distance p.1 p.2.1 = 0) ∨
        (p.2.2 = 1 ∧ margin ≤ pairwise_distance p.1 p.2.1)) →
      ContrastiveLoss_forward margin batch = 0) := by
  constructor
  · apply div_nonneg _ (Nat.cast_nonneg _)
    apply List.sum_nonneg
    intro x hx
    simp only [List.mem_map] at hx
    obtain ⟨p, hp, rfl⟩ := hx
    rcases hl p hp with h | h <;> rw [h] <;> simp <;> positivity
  · intro hz
    unfold ContrastiveLoss_forward
    rw [List.sum_eq_zero, zero_div]
    intro x hx
    simp only [List.mem_map] at hx
    obtain ⟨p, hp, rfl⟩ := hx
    rcases hz p hp with ⟨h0, hd⟩ | ⟨h1, hm⟩
    · rw [h0, hd]; ring
    · rw [h1]
      unfold clamp_min
      rw [max_eq_right (by linarith)]
      ring

/-- Witness for claim C7: a batch of one same-class pair at distance 0 has all
labels in `{0, 1}` and loss exactly 0. -/
theorem contrastive_loss_nonneg_and_zero_cases_witness :
    (∀ p ∈ ([((fun _ => 0), (fun _ => 0), 0)] :
        List ((Fin 1 → ℝ) × (Fin 1 → ℝ) × ℝ)), p.2.2 = 0 ∨ p.2.2 = 1) ∧
    ContrastiveLoss_forward 1
      ([((fun _ => 0), (fun _ => 0), 0)] :
        List ((Fin 1 → ℝ) × (Fin 1 → ℝ) × ℝ)) = 0 := by
  have hl : ∀ p ∈ ([((fun _ => 0), (fun _ => 0), 0)] :
      List ((Fin 1 → ℝ) × (Fin 1 → ℝ) × ℝ)), p.2.2 = 0 ∨ p.2.2 = 1 := by
    intro p hp
    simp only [List.mem_singleton] at hp
    subst hp
    exact Or.inl rfl
  refine ⟨hl, (contrastive_loss_nonneg_and_zero_cases 1 _ hl).2 ?_⟩
  intro p hp
  simp only [List.mem_singleton] at hp
  subst hp
  refine Or.inl ⟨rfl, ?_⟩
  unfold pairwise_distance
  simp

/-- Claim C9: the paired view's length is the number of pair records; for
every in-range index the view resolves both stored indices against the base
dataset and returns the label as a float; and a record whose two indices
coincide resolves to two identical samples. -/
theorem contrastive_dataset_view {α : Type} (D : ContrastiveMNISTDataset α) :
    D.len = D.pairs.length ∧
    (∀ i i1 i2 l : ℕ, D.pairs[i]? = some (i1, i2, l) →
      D.getitem i =
        some (((D.dataset.get i1).1, (D.dataset.get i2).1), (l : ℚ))) ∧
    (∀ i j l : ℕ, D.pairs[i]? = some (j, j, l) →
      ∃ s, D.getitem i = some ((s, s), (l : ℚ))) := by
  refine ⟨rfl, ?_, ?_⟩
  · intro i i1 i2 l h
    simp only [ContrastiveMNISTDataset.getitem, h]
  · intro i j l h
    exact ⟨(D.dataset.get j).1, by simp only [ContrastiveMNISTDataset.getitem, h]⟩

/-- Witness for claim C9: on the toy paired view, record 0 is `(0, 1, 0)` and
resolves to samples `100` and `101` with float label 0. -/
theorem contrastive_dataset_view_witness :
    witness_view.pairs[0]? = some (0, 1, 0) ∧
    witness_view.getitem 0 = some ((100, 101), ((0 : ℕ) : ℚ)) :=
  ⟨rfl, by simpa using (contrastive_dataset_view witness_view).2.1 0 0 1 0 rfl⟩

theorem state_after_argmin (L : ℕ → ℚ) (m : ℕ) :
    ∃ k, k ≤ m ∧ (state_after L (m + 1)).saved = some k ∧
      (state_after L (m + 1)).best_val_loss = some (L k) ∧
      ∀ j, j ≤ m → L k ≤ L j := by
  induction m with
  | zero =>
    refine ⟨0, le_refl 0, ?_, ?_, ?_⟩ <;>
      simp [state_after, checkpoint_step, initTrainState, ltBest]
  | succ m ih =>
    obtain ⟨k, hk, hsaved, hbest, hmin⟩ := ih
    by_cases hlt : L (m + 1) < L k
    · refine ⟨m + 1, le_refl _, ?_, ?_, ?_⟩
      · show (checkpoint_step (state_after L (m + 1)) (m + 1) (L (m + 1))).saved = _
        rw [checkpoint_step, if_pos (by rw [hbest]; simpa [ltBest] using hlt)]
      · show (checkpoint_step (state_after L (m + 1)) (m + 1)
            (L (m + 1))).best_val_loss = _
        rw [checkpoint_step, if_pos (by rw [hbest]; simpa [ltBest] using hlt)]
      · intro j hj
        rcases Nat.lt_or_ge j (m + 1) with h | h
        · exact le_of_lt (lt_of_lt_of_le hlt (hmin j (by omega)))
        · have : j = m + 1 := by omega
          rw [this]
    · refine ⟨k, by omega, ?_, ?_, ?_⟩
      · show (checkpoint_step (state_after L (m + 1)) (m + 1) (L (m + 1))).saved = _
        rw [checkpoint_step, if_neg (by rw [hbest]; simpa [ltBest] using hlt)]
        exact hsaved
      · show (checkpoint_step (state_after L (m + 1)) (m + 1)
            (L (m + 1))).best_val_loss = _
        rw [checkpoint_step, if_neg (by rw [hbest]; simpa [ltBest] using hlt)]
        exact hbest
      · intro j hj
        rcases Nat.lt_or_ge j (m + 1) with h | h
        · exact hmin j (by omega)
        · have : j = m + 1 := by omega
          rw [this]
          exact le_of_not_lt hlt

/-- Claim C4: each epoch's checkpoint decision saves the parameters and
resets the counter exactly on strict validation-loss improvement (otherwise
it increments the counter), and consequently after any `N ≥ 1` completed
epochs the saved checkpoint is from an epoch whose validation loss is minimal
among the first `N` epochs. -/
theorem checkpoint_best_of_first_epochs (L : ℕ → ℚ) (N : ℕ) (hN : 1 ≤ N) :
    (∀ (s : TrainState) (e : ℕ) (v : ℚ),
      (ltBest v s.best_val_loss = true →
        checkpoint_step s e v =
          { best_val_loss := some v, early_stop_counter := 0, saved := some e }) ∧
      (ltBest v s.best_val_loss = false →
        checkpoint_step s e v =
          { s with early_stop_counter := s.early_stop_counter + 1 })) ∧
    ∃ k, k < N ∧ (state_after L N).saved = some k ∧
      (state_after L N).best_val_loss = some (L k) ∧
      ∀ j, j < N → L k ≤ L j := by
  constructor
  · intro s e v
    constructor <;> intro h <;> simp [checkpoint_step, h]
  · obtain ⟨m, rfl⟩ : ∃ m, N = m + 1 := ⟨N - 1, by omega⟩
    obtain ⟨k, hk, hsaved, hbest, hmin⟩ := state_after_argmin L m
    exact ⟨k, by omega, hsaved, hbest, fun j hj => hmin j (by omega)⟩

/-- Witness for claim C4: two epochs of strictly decreasing loss leave the
checkpoint at epoch 1, the argmin of the first two epochs. -/
theorem checkpoint_best_of_first_epochs_witness :
    (1 ≤ 2) ∧
    ∃ k, k < 2 ∧ (state_after (fun e => 5 - (e : ℚ)) 2).saved = some k ∧
      (state_after (fun e => 5 - (e : ℚ)) 2).best_val_loss = some (5 - (k : ℚ)) ∧
      ∀ j : ℕ, j < 2 → 5 - (k : ℚ) ≤ 5 - (j : ℚ) :=
  ⟨by omega, (checkpoint_best_of_first_epochs (fun e => 5 - (e : ℚ)) 2 (by omega)).2⟩

theorem train_loop_aux_runs (L : ℕ → ℚ) (fuel e : ℕ) :
    e ≤ (train_loop_aux L e fuel (state_after L e)).1 ∧
    (train_loop_aux L e fuel (state_after L e)).1 ≤ e + fuel ∧
    (train_loop_aux L e fuel (state_after L e)).2 =
      state_after L (train_loop_aux L e fuel (state_after L e)).1 ∧
    (∀ m, e < m → m < (train_loop_aux L e fuel (state_after L e)).1 →
      (state_after L m).early_stop_counter < patience) ∧
    ((train_loop_aux L e fuel (state_after L e)).1 < e + fuel →
      patience ≤
        (state_after L (train_loop_aux L e fuel
          (state_after L e)).1).early_stop_counter) := by
  induction fuel generalizing e with
  | zero =>
    refine ⟨by simp [train_loop_aux], by simp [train_loop_aux],
      by simp [train_loop_aux], ?_, ?_⟩
    · intro m hm1 hm2
      simp only [train_loop_aux] at hm2
      omega
    · intro h
      simp only [train_loop_aux] at h
      omega
  | succ fuel ih =>
    have hstep : checkpoint_step (state_after L e) e (L e) = state_after L (e + 1) :=
      rfl
    simp only [train_loop_aux, hstep]
    by_cases hs : patience ≤ (state_after L (e + 1)).early_stop_counter
    · rw [if_pos hs]
      exact ⟨by omega, by omega, rfl, fun m hm1 hm2 => by omega, fun _ => hs⟩
    · rw [if_neg hs]
      obtain ⟨h1, h2, h3, h4, h5⟩ := ih (e + 1)
      refine ⟨by omega, by omega, h3, ?_, fun hlt => h5 (by omega)⟩
      intro m hm1 hm2
      rcases Nat.eq_or_lt_of_le (Nat.succ_le_of_lt hm1) with heq | hlt
      · rw [← heq]
        exact Nat.lt_of_not_le hs
      · exact h4 m hlt hm2

/-- Claim C5: the training loop executes at most 50 epochs, every epoch
strictly before the final one ends with an early-stop counter below the
patience 10, and when the loop ends before the 50-epoch budget the final
epoch's counter has reached the patience — so it stops at the end of the
first epoch whose counter reaches 10, or at the epoch budget, whichever
comes first. -/
theorem training_loop_stop (L : ℕ → ℚ) :
    (train_loop L).1 ≤ num_epochs ∧
    (train_loop L).2 = state_after L (train_loop L).1 ∧
    (∀ m, 1 ≤ m → m < (train_loop L).1 →
      (state_after L m).early_stop_counter < patience) ∧
    ((train_loop L).1 < num_epochs →
      patience ≤ (state_after L (train_loop L).1).early_stop_counter) := by
  have hT : train_loop L = train_loop_aux L 0 num_epochs (state_after L 0) := rfl
  obtain ⟨h1, h2, h3, h4, h5⟩ := train_loop_aux_runs L num_epochs 0
  rw [hT]
  exact ⟨by omega, h3, fun m hm1 hm2 => h4 m (by omega) hm2, fun hlt => h5 (by omega)⟩

/-- Witness for claim C5: with a constant validation loss the loop stops
within the 50-epoch budget (at epoch 11, after 10 non-improving epochs), and
mid-run epochs have counters below the patience. -/
theorem training_loop_stop_witness :
    (train_loop witness_losses).1 ≤ num_epochs ∧
    (state_after witness_losses 3).early_stop_counter < patience :=
  ⟨(training_loop_stop witness_losses).1,
    (training_loop_stop witness_losses).2.2.1 3 (by omega) (by decide)⟩

theorem dictGet_addToBucket_same (d : List (ℕ × List ℕ)) (l i : ℕ) :
    dictGet (addToBucket d l i) l = dictGet d l ++ [i] := by
  induction d with
  | nil => simp [addToBucket, dictGet]
  | cons p rest ih =>
    obtain ⟨k, b⟩ := p
    by_cases hk : k = l
    · simp [addToBucket, dictGet, hk]
    · simp [addToBucket, dictGet, hk, ih]

theorem dictGet_addToBucket_ne (d : List (ℕ × List ℕ)) (l l' i : ℕ)
    (h : l' ≠ l) : dictGet (addToBucket d l i) l' = dictGet d l' := by
  have h' : l ≠ l' := Ne.symm h
  induction d with
  | nil => simp [addToBucket, dictGet, h']
  | cons p rest ih =>
    obtain ⟨k, b⟩ := p
    by_cases hk : k = l
    · have hkl' : k ≠ l' := by
        rw [hk]
        exact h'
      simp only [addToBucket, if_pos hk, dictGet, if_neg hkl']
    · simp only [addToBucket, if_neg hk, dictGet]
      by_cases hk' : k = l'
      · rw [if_pos hk', if_pos hk']
      · rw [if_neg hk', if_neg hk']
        exact ih

theorem map_fst_addToBucket (d : List (ℕ × List ℕ)) (l i : ℕ) :
    (addToBucket d l i).map Prod.fst =
      if l ∈ d.map Prod.fst then d.map Prod.fst
      else d.map Prod.fst ++ [l] := by
  induction d with
  | nil => simp [addToBucket]
  | cons p rest ih =>
    obtain ⟨k, b⟩ := p
    by_cases hk : k = l
    · subst hk
      simp [addToBucket]
    · simp only [addToBucket, if_neg hk, List.map_cons, ih]
      by_cases hm : l ∈ rest.map Prod.fst
      · rw [if_pos hm, if_pos (List.mem_cons_of_mem _ hm)]
      · rw [if_neg hm, if_neg ?_, List.cons_append]
        intro hc
        rcases List.mem_cons.mp hc with h | h
        · exact hk h.symm
        · exact hm h

theorem dictGet_eq_nil_of_not_mem (d : List (ℕ × List ℕ)) (l : ℕ)
    (h : l ∉ d.map Prod.fst) : dictGet d l = [] := by
  induction d with
  | nil => rfl
  | cons p rest ih =>
    obtain ⟨k, b⟩ := p
    simp only [List.map_cons, List.mem_cons] at h
    push_neg at h
    simp [dictGet, Ne.symm h.1, ih h.2]

theorem dictGet_of_mem (d : List (ℕ × List ℕ)) (p : ℕ × List ℕ)
    (hp : p ∈ d) (hnd : (d.map Prod.fst).Nodup) : dictGet d p.1 = p.2 := by
  induction d with
  | nil => cases hp
  | cons q rest ih =>
    obtain ⟨k, b⟩ := q
    simp only [List.map_cons, List.nodup_cons] at hnd
    rcases List.mem_cons.mp hp with rfl | hmem
    · simp [dictGet]
    · have hk : k ≠ p.1 := by
        intro hh
        exact hnd.1 (hh ▸ List.mem_map_of_mem Prod.fst hmem)
      simp [dictGet, hk, ih hmem hnd.2]

theorem organize_by_label_succ (n : ℕ) (f : ℕ → ℕ) :
    organize_by_label (n + 1) f =
      addToBucket (organize_by_label n f) (f n) n := by
  unfold organize_by_label
  rw [List.range_succ, List.foldl_append]
  rfl

theorem organize_by_label_inv (n : ℕ) (f : ℕ → ℕ) :
    ((organize_by_label n f).map Prod.fst).Nodup ∧
    (∀ l : ℕ, ∀ i ∈ dictGet (organize_by_label n f) l, f i = l ∧ i < n) ∧
    (∀ l : ℕ, (dictGet (organize_by_label n f) l).Nodup) ∧
    (∀ l ∈ (organize_by_label n f).map Prod.fst,
      dictGet (organize_by_label n f) l ≠ []) ∧
    (∀ i, i < n → i ∈ dictGet (organize_by_label n f) (f i)) := by
  induction n with
  | zero =>
    refine ⟨?_, ?_, ?_, ?_, ?_⟩ <;> simp [organize_by_label, dictGet]
  | succ n ih =>
    obtain ⟨hnd, hmem, hbnd, hne, hall⟩ := ih
    rw [organize_by_label_succ]
    refine ⟨?_, ?_, ?_, ?_, ?_⟩
    · rw [map_fst_addToBucket]
      by_cases hm : f n ∈ (organize_by_label n f).map Prod.fst
      · rw [if_pos hm]
        exact hnd
      · rw [if_neg hm]
        refine List.Nodup.append hnd (List.nodup_singleton _) ?_
        intro x hx hx'
        simp only [List.mem_singleton] at hx'
        subst hx'
        exact hm hx
    · intro l i hi
      by_cases hl : l = f n
      · subst hl
        rw [dictGet_addToBucket_same] at hi
        rcases List.mem_append.mp hi with h | h
        · obtain ⟨h1, h2⟩ := hmem _ _ h
          exact ⟨h1, by omega⟩
        · simp only [List.mem_singleton] at h
          subst h
          exact ⟨rfl, by omega⟩
      · rw [dictGet_addToBucket_ne _ _ _ _ hl] at hi
        obtain ⟨h1, h2⟩ := hmem _ _ hi
        exact ⟨h1, by omega⟩
    · intro l
      by_cases hl : l = f n
      · subst hl
        rw [dictGet_addToBucket_same]
        refine List.Nodup.append (hbnd _) (List.nodup_singleton _) ?_
        intro x hx hx'
        simp only [List.mem_singleton] at hx'
        subst hx'
        exact absurd (hmem _ _ hx).2 (by omega)
      · rw [dictGet_addToBucket_ne _ _ _ _ hl]
        exact hbnd _
    · intro l hlk
      by_cases hl : l = f n
      · subst hl
        rw [dictGet_addToBucket_same]
        simp
      · rw [dictGet_addToBucket_ne _ _ _ _ hl]
        apply hne
        rw [map_fst_addToBucket] at hlk
        by_cases hm : f n ∈ (organize_by_label n f).map Prod.fst
        · rwa [if_pos hm] at hlk
        · rw [if_neg hm] at hlk
          rcases List.mem_append.mp hlk with h | h
          · exact h
          · simp only [List.mem_singleton] at h
            exact absurd h hl
    · intro i hi
      rcases Nat.lt_or_ge i n with h | h
      · by_cases hl : f i = f n
        · have hmem' := hall i h
          rw [hl] at hmem'
          rw [hl, dictGet_addToBucket_same]
          exact List.mem_append.mpr (Or.inl hmem')
        · rw [dictGet_addToBucket_ne _ _ _ _ hl]
          exact hall i h
      · have hin : i = n := by omega
        subst hin
        rw [dictGet_addToBucket_same]
        simp

/-- Claim C8: `organize_by_label` (one scan over all indices) returns a
mapping in which every index below the dataset length appears in its own
label's bucket and only there (bucket keys are pairwise distinct), every
bucket of a present label is non-empty, and every index in a label's bucket
carries that label in the base dataset. -/
theorem organize_by_label_correct (n : ℕ) (f : ℕ → ℕ) :
    (∀ i, i < n → i ∈ dictGet (organize_by_label n f) (f i)) ∧
    (∀ p ∈ organize_by_label n f, ∀ i ∈ p.2, f i = p.1) ∧
    (∀ i, i < n → ∀ p ∈ organize_by_label n f, i ∈ p.2 → p.1 = f i) ∧
    ((organize_by_label n f).map Prod.fst).Nodup ∧
    (∀ p ∈ organize_by_label n f, p.2 ≠ []) := by
  obtain ⟨hnd, hmem, hbnd, hne, hall⟩ := organize_by_label_inv n f
  refine ⟨hall, ?_, ?_, hnd, ?_⟩
  · intro p hp i hi
    rw [← dictGet_of_mem _ p hp hnd] at hi
    exact (hmem _ _ hi).1
  · intro i _ p hp hi
    rw [← dictGet_of_mem _ p hp hnd] at hi
    exact ((hmem _ _ hi).1).symm
  · intro p hp
    have hx := hne p.1 (List.mem_map_of_mem Prod.fst hp)
    rwa [dictGet_of_mem _ p hp hnd] at hx

/-- Witness for claim C8: on the 4-element toy dataset with labels
`[0, 0, 1, 1]`, index 0 is in the bucket of its own label. -/
theorem organize_by_label_correct_witness :
    (0 < 4) ∧
    0 ∈ dictGet (organize_by_label 4 witness_labelOf) (witness_labelOf 0) :=
  ⟨by omega, (organize_by_label_correct 4 witness_labelOf).1 0 (by omega)⟩

theorem rand_choice_mem {α : Type} {l : List α} {r : ℕ} {a : α}
    (h : rand_choice l r = some a) : a ∈ l := by
  unfold rand_choice at h
  exact List.getElem?_mem h

theorem rand_choice_some {α : Type} (l : List α) (r : ℕ) (h : l ≠ []) :
    ∃ a, rand_choice l r = some a := by
  unfold rand_choice
  have hlen : 0 < l.length := List.length_pos.mpr h
  have hlt : r % l.length < l.length := Nat.mod_lt _ hlen
  exact ⟨l[r % l.length], List.getElem?_eq_getElem hlt⟩

theorem rand_sample2_spec {α : Type} (l : List α) (r1 r2 : ℕ)
    (h : 2 ≤ l.length) :
    ∃ a b, rand_sample2 l r1 r2 = some (a, b) ∧ a ∈ l ∧ b ∈ l ∧
      ∃ i j : ℕ, i ≠ j ∧ l[i]? = some a ∧ l[j]? = some b := by
  have hi : r1 % l.length < l.length := Nat.mod_lt _ (by omega)
  have hj0 : r2 % (l.length - 1) < l.length - 1 := Nat.mod_lt _ (by omega)
  rcases le_or_lt (r1 % l.length) (r2 % (l.length - 1)) with hle | hgt
  · have hjlt : r2 % (l.length - 1) + 1 < l.length := by omega
    refine ⟨l[r1 % l.length], l[r2 % (l.length - 1) + 1], ?_,
      List.getElem_mem _, List.getElem_mem _,
      r1 % l.length, r2 % (l.length - 1) + 1, by omega,
      List.getElem?_eq_getElem hi, List.getElem?_eq_getElem hjlt⟩
    unfold rand_sample2
    rw [if_pos h, if_pos hle, List.getElem?_eq_getElem hi,
      List.getElem?_eq_getElem hjlt]
  · have hjlt : r2 % (l.length - 1) < l.length := by omega
    refine ⟨l[r1 % l.length], l[r2 % (l.length - 1)], ?_,
      List.getElem_mem _, List.getElem_mem _,
      r1 % l.length, r2 % (l.length - 1), by omega,
      List.getElem?_eq_getElem hi, List.getElem?_eq_getElem hjlt⟩
    unfold rand_sample2
    rw [if_pos h, if_neg (by omega), List.getElem?_eq_getElem hi,
      List.getElem?_eq_getElem hjlt]

theorem rand_sample2_none {α : Type} (l : List α) (r1 r2 : ℕ)
    (h : l.length < 2) : rand_sample2 l r1 r2 = none := by
  unfold rand_sample2
  rw [if_neg (by omega)]

theorem rand_sample2_inv {α : Type} {l : List α} {r1 r2 : ℕ} {a b : α}
    (h : rand_sample2 l r1 r2 = some (a, b)) :
    a ∈ l ∧ b ∈ l ∧ ∃ i j : ℕ, i ≠ j ∧ l[i]? = some a ∧ l[j]? = some b := by
  unfold rand_sample2 at h
  split at h
  · split at h
    · rename_i a' b' heq1 heq2
      simp only [Option.some.injEq, Prod.mk.injEq] at h
      obtain ⟨rfl, rfl⟩ := h
      exact ⟨List.getElem?_mem heq1, List.getElem?_mem heq2, _, _,
        by split <;> omega, heq1, heq2⟩
    · exact Option.noConfusion h
  · exact Option.noConfusion h

theorem rand_sample2_ne {α : Type} {l : List α} {r1 r2 : ℕ} {a b : α}
    (h : rand_sample2 l r1 r2 = some (a, b)) (hnd : l.Nodup) : a ≠ b := by
  obtain ⟨-, -, i, j, hij, hi, hj⟩ := rand_sample2_inv h
  intro hab
  subst hab
  apply hij
  have hilt : i < l.length := by
    by_contra hc
    rw [List.getElem?_eq_none_iff.mpr (by omega)] at hi
    exact Option.noConfusion hi
  exact List.getElem?_inj hilt hnd (hi.trans hj.symm)

theorem create_one_shape (d : List (ℕ × List ℕ)) (r : IterRand)
    (h2 : 2 ≤ (d.map Prod.fst).length)
    (hne : ∀ l ∈ d.map Prod.fst, dictGet d l ≠ []) :
    ∃ lab, rand_choice (d.map Prod.fst) r.posLabel = some lab ∧
      ((2 ≤ (dictGet d lab).length ∧
        ∃ a b c e, create_one d r = some [(a, b, 0), (c, e, 1)]) ∨
       ((dictGet d lab).length < 2 ∧
        ∃ c e, create_one d r = some [(c, e, 1)])) := by
  have hnil : d.map Prod.fst ≠ [] := by
    intro hh
    rw [hh] at h2
    simp at h2
  obtain ⟨lab, hlab⟩ := rand_choice_some _ r.posLabel hnil
  obtain ⟨l1, l2, hs2, hl1, hl2, -⟩ :=
    rand_sample2_spec (d.map Prod.fst) r.negLab1 r.negLab2 h2
  obtain ⟨j1, hj1⟩ := rand_choice_some (dictGet d l1) r.negIdx1 (hne l1 hl1)
  obtain ⟨j2, hj2⟩ := rand_choice_some (dictGet d l2) r.negIdx2 (hne l2 hl2)
  refine ⟨lab, hlab, ?_⟩
  by_cases hb : 2 ≤ (dictGet d lab).length
  · obtain ⟨a, b, hsp, -, -, -⟩ :=
      rand_sample2_spec (dictGet d lab) r.posIdx1 r.posIdx2 hb
    refine Or.inl ⟨hb, a, b, j1, j2, ?_⟩
    simp only [create_one, hlab, if_pos hb, hsp, hs2, hj1, hj2,
      List.cons_append, List.nil_append]
  · refine Or.inr ⟨by omega, j1, j2, ?_⟩
    simp only [create_one, hlab, if_neg hb, hs2, hj1, hj2, List.nil_append]

theorem create_one_mem (f : ℕ → ℕ) (d : List (ℕ × List ℕ)) (r : IterRand)
    (chunk : List (ℕ × ℕ × ℕ))
    (hknd : (d.map Prod.fst).Nodup)
    (hlab : ∀ l : ℕ, ∀ i ∈ dictGet d l, f i = l)
    (hbnd : ∀ l : ℕ, (dictGet d l).Nodup)
    (h : create_one d r = some chunk) :
    ∀ i1 i2 s, (i1, i2, s) ∈ chunk →
      (s = 0 → i1 ≠ i2 ∧ f i1 = f i2 ∧ i1 ∈ dictGet d (f i1) ∧
        i2 ∈ dictGet d (f i1)) ∧
      (s = 1 → f i1 ≠ f i2) := by
  intro i1 i2 s hmem
  unfold create_one at h
  split at h
  · exact Option.noConfusion h
  · rename_i lab heqlab
    split at h
    · exact Option.noConfusion h
    · rename_i pos heqpos
      split at h
      · exact Option.noConfusion h
      · rename_i l1 l2 heqs2
        split at h
        · exact Option.noConfusion h
        · rename_i j1 heqj1
          split at h
          · exact Option.noConfusion h
          · rename_i j2 heqj2
            injection h with h
            subst h
            have hneg : ∀ hn : (i1, i2, s) = (j1, j2, 1),
                (s = 0 → i1 ≠ i2 ∧ f i1 = f i2 ∧ i1 ∈ dictGet d (f i1) ∧
                  i2 ∈ dictGet d (f i1)) ∧
                (s = 1 → f i1 ≠ f i2) := by
              intro hn
              simp only [Prod.mk.injEq] at hn
              obtain ⟨rfl, rfl, rfl⟩ := hn
              refine ⟨fun h0 => absurd h0 one_ne_zero, fun _ => ?_⟩
              have hf1 : f i1 = l1 := hlab l1 i1 (rand_choice_mem heqj1)
              have hf2 : f i2 = l2 := hlab l2 i2 (rand_choice_mem heqj2)
              have hl12 : l1 ≠ l2 := rand_sample2_ne heqs2 hknd
              rw [hf1, hf2]
              exact hl12
            rcases List.mem_append.mp hmem with hp | hn
            · -- a record coming from the positive branch
              split at heqpos
              · rename_i hblen
                split at heqpos
                · exact Option.noConfusion heqpos
                · rename_i a b heqab
                  injection heqpos with heqpos
                  subst heqpos
                  simp only [List.mem_singleton] at hp
                  simp only [Prod.mk.injEq] at hp
                  obtain ⟨rfl, rfl, rfl⟩ := hp
                  refine ⟨fun _ => ?_, fun h1 => absurd h1 zero_ne_one⟩
                  obtain ⟨ha, hb', -⟩ := rand_sample2_inv heqab
                  have hfa : f i1 = lab := hlab lab i1 ha
                  have hfb : f i2 = lab := hlab lab i2 hb'
                  refine ⟨rand_sample2_ne heqab (hbnd lab), by rw [hfa, hfb], ?_, ?_⟩
                  · rw [hfa]
                    exact ha
                  · rw [hfa]
                    exact hb'
              · injection heqpos with heqpos
                subst heqpos
                cases hp
            · simp only [List.mem_singleton] at hn
              exact hneg hn

theorem create_pairs_aux_mem (f : ℕ → ℕ) (d : List (ℕ × List ℕ))
    (rnd : ℕ → IterRand)
    (hknd : (d.map Prod.fst).Nodup)
    (hlab : ∀ l : ℕ, ∀ i ∈ dictGet d l, f i = l)
    (hbnd : ∀ l : ℕ, (dictGet d l).Nodup) :
    ∀ m k ps, create_pairs_aux d rnd k m = some ps →
      ∀ i1 i2 s, (i1, i2, s) ∈ ps →
        (s = 0 → i1 ≠ i2 ∧ f i1 = f i2 ∧ i1 ∈ dictGet d (f i1) ∧
          i2 ∈ dictGet d (f i1)) ∧
        (s = 1 → f i1 ≠ f i2) := by
  intro m
  induction m with
  | zero =>
    intro k ps h i1 i2 s hmem
    simp only [create_pairs_aux] at h
    injection h with h
    subst h
    cases hmem
  | succ m ih =>
    intro k ps h i1 i2 s hmem
    simp only [create_pairs_aux] at h
    split at h
    · exact Option.noConfusion h
    · rename_i chunk heqchunk
      split at h
      · exact Option.noConfusion h
      · rename_i rest heqrest
        injection h with h
        subst h
        rcases List.mem_append.mp hmem with hc | hr
        · exact create_one_mem f d (rnd k) chunk hknd hlab hbnd heqchunk
            i1 i2 s hc
        · exact ih (k + 1) rest heqrest i1 i2 s hr

/-- Claim C2: every record `(idx1, idx2, simLabel)` that `create_pairs`
produces from a label index built by `organize_by_label` satisfies: for
`simLabel = 0` the two indices are distinct members of the same label bucket
(so their base-dataset labels agree), and for `simLabel = 1` they come from
two different label buckets (so their base-dataset labels differ). -/
theorem create_pairs_label_consistency (n : ℕ) (f : ℕ → ℕ) (N : ℕ)
    (rnd : ℕ → IterRand) (ps : List (ℕ × ℕ × ℕ))
    (h : create_pairs (organize_by_label n f) N rnd = some ps) :
    ∀ i1 i2 s, (i1, i2, s) ∈ ps →
      (s = 0 → i1 ≠ i2 ∧ f i1 = f i2 ∧
        i1 ∈ dictGet (organize_by_label n f) (f i1) ∧
        i2 ∈ dictGet (organize_by_label n f) (f i1)) ∧
      (s = 1 → f i1 ≠ f i2) := by
  obtain ⟨hnd, hmem, hbnd, -, -⟩ := organize_by_label_inv n f
  exact create_pairs_aux_mem f (organize_by_label n f) rnd hnd
    (fun l i hi => (hmem l i hi).1) hbnd N 0 ps h

/-- Witness for claim C2: on the toy dataset with labels `[0, 0, 1, 1]` and
the constant oracle, `create_pairs` returns `[(0, 1, 0), (0, 2, 1)]`, and the
negative record's two indices indeed carry different labels. -/
theorem create_pairs_label_consistency_witness :
    create_pairs (organize_by_label 4 witness_labelOf) 1 witness_rand =
      some [(0, 1, 0), (0, 2, 1)] ∧
    witness_labelOf 0 ≠ witness_labelOf 2 :=
  ⟨by decide,
    ((create_pairs_label_consistency 4 witness_labelOf 1 witness_rand
      [(0, 1, 0), (0, 2, 1)] (by decide)) 0 2 1 (by decide)).2 rfl⟩

theorem create_pairs_aux_shape (d : List (ℕ × List ℕ)) (rnd : ℕ → IterRand)
    (h2 : 2 ≤ (d.map Prod.fst).length)
    (hne : ∀ l ∈ d.map Prod.fst, dictGet d l ≠ []) :
    ∀ m k, ∃ chunks : List (List (ℕ × ℕ × ℕ)),
      create_pairs_aux d rnd k m = some chunks.flatten ∧
      chunks.length = m ∧
      (∀ j, ∀ hj : j < chunks.length, ∃ lab,
        rand_choice (d.map Prod.fst) ((rnd (k + j)).posLabel) = some lab ∧
        ((2 ≤ (dictGet d lab).length ∧
          ∃ a b c e, chunks.get ⟨j, hj⟩ = [(a, b, 0), (c, e, 1)]) ∨
         ((dictGet d lab).length < 2 ∧
          ∃ c e, chunks.get ⟨j, hj⟩ = [(c, e, 1)]))) ∧
      (chunks.flatten.filter (fun p => p.2.2 == 1)).length = m ∧
      (chunks.flatten.filter (fun p => p.2.2 == 0)).length ≤ m := by
  intro m
  induction m with
  | zero =>
    intro k
    refine ⟨[], by simp [create_pairs_aux], rfl, ?_, by simp, by simp⟩
    intro j hj
    simp at hj
  | succ m ih =>
    intro k
    obtain ⟨chunks, hcp, hlen, hshape, hneg, hpos⟩ := ih (k + 1)
    obtain ⟨lab, hlab, hcase⟩ := create_one_shape d (rnd k) h2 hne
    rcases hcase with ⟨hb, a, b, c, e, hco⟩ | ⟨hb, c, e, hco⟩
    · refine ⟨[(a, b, 0), (c, e, 1)] :: chunks, ?_, by simp [hlen], ?_, ?_, ?_⟩
      · simp only [create_pairs_aux, hco, hcp, List.flatten_cons]
      · intro j hj
        cases j with
        | zero =>
          refine ⟨lab, ?_, Or.inl ⟨hb, a, b, c, e, rfl⟩⟩
          rw [Nat.add_zero]
          exact hlab
        | succ j' =>
          have hj' : j' < chunks.length := by simpa using hj
          obtain ⟨lab', hlab', hcase'⟩ := hshape j' hj'
          refine ⟨lab', ?_, hcase'⟩
          have hadd : k + (j' + 1) = (k + 1) + j' := by omega
          rw [hadd]
          exact hlab'
      · simp only [List.flatten_cons, List.filter_append, List.length_append]
        have h1 : (([(a, b, 0), (c, e, 1)] : List (ℕ × ℕ × ℕ)).filter
            (fun p => p.2.2 == 1)).length = 1 := rfl
        omega
      · simp only [List.flatten_cons, List.filter_append, List.length_append]
        have h1 : (([(a, b, 0), (c, e, 1)] : List (ℕ × ℕ × ℕ)).filter
            (fun p => p.2.2 == 0)).length = 1 := rfl
        omega
    · refine ⟨[(c, e, 1)] :: chunks, ?_, by simp [hlen], ?_, ?_, ?_⟩
      · simp only [create_pairs_aux, hco, hcp, List.flatten_cons]
      · intro j hj
        cases j with
        | zero =>
          refine ⟨lab, ?_, Or.inr ⟨hb, c, e, rfl⟩⟩
          rw [Nat.add_zero]
          exact hlab
        | succ j' =>
          have hj' : j' < chunks.length := by simpa using hj
          obtain ⟨lab', hlab', hcase'⟩ := hshape j' hj'
          refine ⟨lab', ?_, hcase'⟩
          have hadd : k + (j' + 1) = (k + 1) + j' := by omega
          rw [hadd]
          exact hlab'
      · simp only [List.flatten_cons, List.filter_append, List.length_append]
        have h1 : (([(c, e, 1)] : List (ℕ × ℕ × ℕ)).filter
            (fun p => p.2.2 == 1)).length = 1 := rfl
        omega
      · simp only [List.flatten_cons, List.filter_append, List.length_append]
        have h1 : (([(c, e, 1)] : List (ℕ × ℕ × ℕ)).filter
            (fun p => p.2.2 == 0)).length = 0 := rfl
        omega

/-- Claim C3: from a label index with at least two labels, `create_pairs`
succeeds and its output decomposes into `N` per-iteration chunks in
generation order: every chunk is either a positive record immediately
followed by a negative record, or a lone negative record, the latter exactly
when the label chosen for that iteration has a bucket with fewer than two
members; hence exactly `N` negative records and at most `N` positive
records. -/
theorem create_pairs_structure (n : ℕ) (f : ℕ → ℕ) (N : ℕ)
    (rnd : ℕ → IterRand)
    (h2 : 2 ≤ ((organize_by_label n f).map Prod.fst).length) :
    ∃ chunks : List (List (ℕ × ℕ × ℕ)),
      create_pairs (organize_by_label n f) N rnd = some chunks.flatten ∧
      chunks.length = N ∧
      (chunks.flatten.filter (fun p => p.2.2 == 1)).length = N ∧
      (chunks.flatten.filter (fun p => p.2.2 == 0)).length ≤ N ∧
      (∀ j, ∀ hj : j < chunks.length, ∃ lab,
        rand_choice ((organize_by_label n f).map Prod.fst)
          ((rnd j).posLabel) = some lab ∧
        ((2 ≤ (dictGet (organize_by_label n f) lab).length ∧
          ∃ a b c e, chunks.get ⟨j, hj⟩ = [(a, b, 0), (c, e, 1)]) ∨
         ((dictGet (organize_by_label n f) lab).length < 2 ∧
          ∃ c e, chunks.get ⟨j, hj⟩ = [(c, e, 1)]))) := by
  obtain ⟨-, -, -, hne, -⟩ := organize_by_label_inv n f
  obtain ⟨chunks, h1, hlen, hshape, hn1, hp1⟩ :=
    create_pairs_aux_shape (organize_by_label n f) rnd h2 hne N 0
  refine ⟨chunks, h1, hlen, hn1, hp1, ?_⟩
  intro j hj
  obtain ⟨lab, hlab, hcase⟩ := hshape j hj
  refine ⟨lab, ?_, hcase⟩
  rwa [Nat.zero_add] at hlab

/-- Witness for claim C3: the toy label index has two labels, and
`create_pairs` on it succeeds. -/
theorem create_pairs_structure_witness :
    2 ≤ ((organize_by_label 4 witness_labelOf).map Prod.fst).length ∧
    (create_pairs (organize_by_label 4 witness_labelOf) 1
      witness_rand).isSome = true := by
  refine ⟨by decide, ?_⟩
  obtain ⟨chunks, h1, -⟩ :=
    create_pairs_structure 4 witness_labelOf 1 witness_rand (by decide)
  rw [h1]
  rfl

theorem create_one_none_of_few_labels (d : List (ℕ × List ℕ)) (r : IterRand)
    (h : (d.map Prod.fst).length < 2) : create_one d r = none := by
  cases hc : rand_choice (d.map Prod.fst) r.posLabel with
  | none => simp [create_one, hc]
  | some lab =>
    by_cases hb : 2 ≤ (dictGet d lab).length
    · obtain ⟨a, b, hsp, -, -, -⟩ :=
        rand_sample2_spec (dictGet d lab) r.posIdx1 r.posIdx2 hb
      simp [create_one, hc, if_pos hb, hsp,
        rand_sample2_none _ r.negLab1 r.negLab2 h]
    · simp [create_one, hc, if_neg hb,
        rand_sample2_none _ r.negLab1 r.negLab2 h]

/-- Claim C10: on a label index with fewer than two labels and a positive
requested count, `create_pairs` raises (returns `none`) instead of returning
the records produced so far — with zero labels already the positive-pair
`random.choice` on the empty label list fails, and with exactly one label the
negative-pair `random.sample(labels, 2)` fails. -/
theorem create_pairs_error_on_few_labels (d : List (ℕ × List ℕ)) (N : ℕ)
    (rnd : ℕ → IterRand) (hfew : (d.map Prod.fst).length < 2) (hN : 1 ≤ N) :
    create_pairs d N rnd = none ∧
    (d.map Prod.fst = [] →
      rand_choice (d.map Prod.fst) ((rnd 0).posLabel) = none) ∧
    ((d.map Prod.fst).length = 1 →
      rand_sample2 (d.map Prod.fst) ((rnd 0).negLab1) ((rnd 0).negLab2) =
        none) := by
  refine ⟨?_, ?_, ?_⟩
  · obtain ⟨m, rfl⟩ : ∃ m, N = m + 1 := ⟨N - 1, by omega⟩
    unfold create_pairs
    simp only [create_pairs_aux, create_one_none_of_few_labels d (rnd 0) hfew]
  · intro hk
    rw [hk]
    rfl
  · intro h1
    exact rand_sample2_none _ _ _ (by omega)

/-- Witness for claim C10: a one-label dictionary with a two-element bucket
makes `create_pairs` fail. -/
theorem create_pairs_error_on_few_labels_witness :
    (([(0, [1, 2])] : List (ℕ × List ℕ)).map Prod.fst).length < 2 ∧
    create_pairs [(0, [1, 2])] 1 witness_rand = none :=
  ⟨by decide,
    (create_pairs_error_on_few_labels [(0, [1, 2])] 1 witness_rand (by decide)
      (by decide)).1⟩
